import Mathlib

/-!
Shallow embedding of the core pipeline of `src/server/yamnet_server.py`
(the `YamnetAnalyzer` class and the SSE route `stream_analysis`).

Conventions:
* wall-clock times and audio confidences are rationals (`ℚ`);
* the external YAMNet model call is an explicit input
  (`Option (List (List ℚ))`, `none` modelling a raised exception);
* the bounded result queue is a Lean list together with the
  drop-oldest push implemented by lines 382-390 of the source;
* the producer loop / SSE consumer interaction is a small-step
  machine over explicit event traces.
-/

namespace Yamnet

/-- The suffix of the last `C` elements: `l.drop (l.length - C)`. -/
def lastN (C : ℕ) (l : List α) : List α :=
  l.drop (l.length - C)

/-! ## Result queue (`analysis_queue`, capacity 50)

`yamnet_server.py` lines 382-390: `put_nowait`; on `queue.Full` it pops one
element with `get_nowait` and retries the `put_nowait`. -/

/-- One push onto the bounded queue: if there is room, append; otherwise
evict the oldest entry (head) and then append.  Mirrors lines 382-390. -/
def pushDropOldest (C : ℕ) (q : List α) (x : α) : List α :=
  if q.length < C then q ++ [x] else q.tail ++ [x]

/-- Fold a sequence of pushes over the queue. -/
def pushAll (C : ℕ) (q : List α) (xs : List α) : List α :=
  xs.foldl (pushDropOldest C) q

/-! ## Analyzer lifecycle state (`YamnetAnalyzer` fields and `StreamState`) -/

/-- The mutable fields of `YamnetAnalyzer` / `StreamState` that the stop and
reconnect paths touch.  `ffmpegProcess` is the subprocess handle
(`self.ffmpeg_process`), `ffmpegPid` is `state.ffmpeg_pid`. -/
structure AnalyzerState where
  running : Bool
  shouldReconnect : Bool
  ffmpegProcess : Option ℕ
  ffmpegPid : Option ℕ
  connected : Bool
  deriving DecidableEq, Repr

/-- Embeds `cleanup_ffmpeg` (lines 197-212): the body runs only under
`if self.ffmpeg_process:`; it terminates the process and in the `finally`
block clears both the handle and `state.ffmpeg_pid`. -/
def cleanupFfmpeg (s : AnalyzerState) : AnalyzerState :=
  if s.ffmpegProcess = none then s
  else { s with ffmpegProcess := none, ffmpegPid := none }

/-- Embeds `stop` (lines 484-490): clear `running` and `should_reconnect`,
then `cleanup_ffmpeg`. -/
def stop (s : AnalyzerState) : AnalyzerState :=
  cleanupFfmpeg { s with running := false, shouldReconnect := false }

/-- End of one streaming cycle (lines 408-411): `cleanup_ffmpeg()` then
`state.connected = False`. -/
def onStreamEnd (s : AnalyzerState) : AnalyzerState :=
  { cleanupFfmpeg s with connected := false }

/-! ## Reconnect / backoff loop (lines 291-320)

The inner connect loop is driven by the boolean outcome of
`start_ffmpeg_stream()`.  On failure it sleeps
`min(base_backoff * 2 ** reconnect_attempt, max_backoff)` seconds
(`base_backoff = 5`, `max_backoff = 300`) and increments the local
`reconnect_attempt`; on success it resets `reconnect_attempt`, and —
after `apply_stream_delay` — increments `state.connection_attempts`
(line 320).  Failed launches never touch `state.connection_attempts`. -/

/-- Run the connect-attempt loop on a list of `start_ffmpeg_stream` outcomes.
State: `(reconnect_attempt, state.connection_attempts, waits performed)`.
Returns the final `connection_attempts` value, the backoff waits that were
slept, and whether a connection was established. -/
def runAttempts : List Bool → ℕ → ℕ → List ℕ → ℕ × List ℕ × Bool
  | [], _, attempts, waits => (attempts, waits, false)
  | o :: os, k, attempts, waits =>
    if o then (attempts + 1, waits, true)
    else runAttempts os (k + 1) attempts (waits ++ [min (5 * 2 ^ k) 300])

/-! ## Frame assembly read loop (lines 328-364)

Each iteration reads up to `chunk_size * 2` bytes (`chunk_size = 16000`
samples, two bytes per sample).  A zero-byte read increments `empty_reads`
(and checks ffmpeg's stderr for fatal messages); a non-empty read resets
`empty_reads` to 0.  The loop breaks to reconnect when `empty_reads`
exceeds `max_empty_reads = 100`.  Reads shorter than half a chunk are
discarded; full ones are normalized (`int16 / 32768.0`) and analyzed. -/

/-- One `stdout.read` outcome: the decoded int16 samples, and whether the
stderr probe (only performed on empty reads, lines 340-349) matched one of
the fatal error strings. -/
structure ReadChunk where
  data : List ℤ
  fatalStderr : Bool
  deriving DecidableEq, Repr

/-- Why the read loop stopped. -/
inductive LoopExit
  | inputExhausted
  | stderrFatal
  | stalled
  deriving DecidableEq, Repr

/-- Lines 368-369: int16 PCM to floats in `[-1, 1]`. -/
def normalize (d : List ℤ) : List ℚ :=
  d.map (fun v => (v : ℚ) / 32768)

/-- The read loop (lines 331-364) on a list of read outcomes, carrying the
`empty_reads` counter and the frames handed to `analyze_audio` so far. -/
def runReadLoop (maxEmpty chunkSize : ℕ) :
    List ReadChunk → ℕ → List (List ℚ) → List (List ℚ) × LoopExit
  | [], _, frames => (frames, .inputExhausted)
  | r :: rs, empties, frames =>
    if r.data.length = 0 then
      if r.fatalStderr then (frames, .stderrFatal)
      else if empties + 1 > maxEmpty then (frames, .stalled)
      else runReadLoop maxEmpty chunkSize rs (empties + 1) frames
    else
      if 2 * r.data.length < chunkSize then runReadLoop maxEmpty chunkSize rs 0 frames
      else runReadLoop maxEmpty chunkSize rs 0 (frames ++ [normalize r.data])

/-- Specification-side predicate: starting from counter value `e`, no run
of consecutive empty reads ever drives the counter above `k`. -/
def emptyRunsBounded (k : ℕ) : List ReadChunk → ℕ → Bool
  | [], _ => true
  | r :: rs, e =>
    if r.data.length = 0 then decide (e + 1 ≤ k) && emptyRunsBounded k rs (e + 1)
    else emptyRunsBounded k rs 0

/-! ## Classifier adapter (`analyze_audio`, lines 419-482) -/

/-- One entry of `topClasses` as built in the loop at lines 449-455. -/
structure TopClass where
  id : ℕ
  name : String
  confidence : ℚ
  category : String
  color : String
  deriving DecidableEq, Repr

/-- Embeds `get_category_color` (lines 178-195). -/
def getCategoryColor (category : String) : String :=
  match category with
  | "music" => "#5aff8c"
  | "instrument" => "#2ecc71"
  | "speech" => "#ff8c5a"
  | "human" => "#e74c3c"
  | "animal" => "#9b59b6"
  | "vehicle" => "#3498db"
  | "nature" => "#1abc9c"
  | "electronic" => "#00bcd4"
  | "household" => "#795548"
  | "tool" => "#f39c12"
  | "sport" => "#e67e22"
  | "impact" => "#e91e63"
  | _ => "#607d8b"

/-- Python `int(x)` on a rational: truncation towards zero. -/
def pyInt (x : ℚ) : ℤ :=
  if 0 ≤ x then ⌊x⌋ else ⌈x⌉

/-- Embeds `np.mean(scores, axis=0)`: column-wise mean of the score matrix
(one row per internal sub-window). -/
def avgScores (rows : List (List ℚ)) : List ℚ :=
  match rows with
  | [] => []
  | r0 :: _ => (List.range r0.length).map
      (fun j => (rows.map (fun r => r.getD j 0)).sum / rows.length)

/-- Descending order on entry confidence; total preorder used by the stable
sort at line 459 (`top_classes.sort(key=..., reverse=True)`). -/
def confGe (a b : TopClass) : Prop := b.confidence ≤ a.confidence

instance : DecidableRel confGe := fun _ _ => inferInstanceAs (Decidable (_ ≤ _))

instance : IsTotal TopClass confGe := ⟨fun a b => le_total b.confidence a.confidence⟩

instance : IsTrans TopClass confGe := ⟨fun _ _ _ h h' => le_trans h' h⟩

/-- Embeds `np.argsort(avg_scores)[-20:][::-1]` (line 435): indices by score
ascending (stably), keep the last 20, reverse — the top-20 indices in
descending score order. -/
def topIndices (avg : List ℚ) : List ℕ :=
  (lastN 20 ((List.range avg.length).insertionSort
    (fun i j => avg.getD i 0 ≤ avg.getD j 0))).reverse

/-- The filtering loop at lines 440-457: walk the top-20 indices, skip
entries whose confidence is below the 0.005 floor, and build the
`top_classes` records (pre-sort, pre-truncation). -/
def survivors (names cats : ℕ → String) (avg : List ℚ) : List TopClass :=
  (topIndices avg).filterMap (fun idx =>
    let conf := avg.getD idx 0
    if conf < 0.005 then none
    else some ⟨idx, names idx, conf, cats idx, getCategoryColor (cats idx)⟩)

/-- Line 459: `top_classes.sort(key=lambda x: x['confidence'], reverse=True)`
— a stable sort, descending by confidence. -/
def sortedSurvivors (names cats : ℕ → String) (avg : List ℚ) : List TopClass :=
  (survivors names cats avg).insertionSort confGe

/-- Lines 461-462: truncate to at most 15 entries. -/
def truncTop (l : List TopClass) : List TopClass :=
  if l.length > 15 then l.take 15 else l

/-- The `category_scores` accumulation (lines 464-466): a `defaultdict(float)`
keyed by category, in first-insertion order. -/
def addScore (acc : List (String × ℚ)) (c : TopClass) : List (String × ℚ) :=
  if acc.any (fun p => p.1 = c.category) then
    acc.map (fun p => if p.1 = c.category then (p.1, p.2 + c.confidence) else p)
  else acc ++ [(c.category, c.confidence)]

/-- The full `category_scores` dict for an entry list, as an association
list in insertion order. -/
def catScores (l : List TopClass) : List (String × ℚ) :=
  l.foldl addScore []

/-- Python `max(items, key=lambda x: x[1], default=('other', 0))` (line 468):
scan left to right, replacing the current best only on a strictly greater
value, so the first maximum wins. -/
def pyMaxBy (al : List (String × ℚ)) : String × ℚ :=
  match al with
  | [] => ("other", 0)
  | x :: xs => xs.foldl (fun b y => if b.2 < y.2 then y else b) x

/-- The shape of the dict returned by `analyze_audio`.  `stateSnapshot`
models the `'state'` sub-dict, absent (`none`) on the error path. -/
structure AnalysisResult where
  timestamp : ℚ
  topClasses : List TopClass
  dominantCategory : String
  totalConfidence : ℚ
  totalClasses : ℕ
  analysisId : ℤ
  stateSnapshot : Option (Bool × ℕ × ℕ)
  deriving DecidableEq, Repr

/-- Embeds `analyze_audio` (lines 419-482).  `modelOut` is the outcome of
`self.model(audio_data)`: `none` models a raised exception, `some rows`
the score matrix.  `now` stands for `time.time()`, `snap` for the analyzer
state snapshot embedded in the success dict. -/
def analyzeAudio (names cats : ℕ → String) (modelOut : Option (List (List ℚ)))
    (now : ℚ) (snap : Bool × ℕ × ℕ) : AnalysisResult :=
  match modelOut with
  | none =>
      { timestamp := now
        topClasses := []
        dominantCategory := "error"
        totalConfidence := 0
        totalClasses := 0
        analysisId := pyInt (now * 1000)
        stateSnapshot := none }
  | some rows =>
      let avg := avgScores rows
      let top := truncTop (sortedSurvivors names cats avg)
      { timestamp := now
        topClasses := top
        dominantCategory := (pyMaxBy (catScores top)).1
        totalConfidence := ((survivors names cats avg).map (fun c => c.confidence)).sum
        totalClasses := top.length
        analysisId := pyInt (now * 1000)
        stateSnapshot := some snap }

/-! ## Specification-side dominant category (for claim C7) -/

/-- Summed confidence of the entries of `l` whose category is `c`. -/
def catSum (c : String) (l : List TopClass) : ℚ :=
  ((l.filter (fun t => t.category = c)).map (fun t => t.confidence)).sum

/-- The distinct values of `m`, in order of first occurrence. -/
def firstOccs (m : List String) : List String :=
  m.foldl (fun acc a => if a ∈ acc then acc else acc ++ [a]) []

/-- Specification-side dominant category: among the categories of the
surviving entries, ordered by first appearance in the confidence-descending
entry list, the first one whose summed confidence is maximal; `"other"`
when there are no entries. -/
def dominantSpec (l : List TopClass) : String :=
  match (firstOccs (l.map (fun t => t.category))).find?
      (fun c => (l.map (fun t => t.category)).all
        (fun d => decide (catSum d l ≤ catSum c l))) with
  | some c => c
  | none => "other"

/-! ## Producer / SSE consumer trace machine (claims C1, C4)

`start_analysis` lines 373-390: each produced analysis has its timestamp
rewritten to `time.time() - stream_delay`, is stored in `latest_analysis`,
and is pushed onto the bounded queue with the drop-oldest fallback.
`stream_analysis.generate` (lines 543-559): each SSE client iteration pops
the queue (falling back to `latest_analysis` on timeout) and sends the
candidate iff its `analysisId` differs from the client's `last_sent_id`.
`apply_stream_delay` (lines 271-280) sleeps once, before the read loop
starts; it does not gate individual results. -/

/-- The fields of a produced analysis relevant to ordering and delay:
production wall-clock time, the rewritten timestamp (lines 375-376), and
`analysisId = int(time.time() * 1000)` (line 476). -/
structure Produced where
  prodTime : ℚ
  timestamp : ℚ
  analysisId : ℤ
  deriving DecidableEq, Repr

/-- The analysis produced at wall-clock time `t` under stream delay `D`. -/
def mkProduced (D t : ℚ) : Produced :=
  { prodTime := t, timestamp := t - D, analysisId := pyInt (t * 1000) }

/-- Shared state plus the distinguished client's generator state:
the bounded queue, the `latest_analysis` slot, `last_sent_id`, and the
list of (send time, analysis) events the client has emitted. -/
structure SysState where
  queue : List Produced
  latest : Option Produced
  lastSentId : Option ℤ
  sent : List (ℚ × Produced)
  deriving DecidableEq, Repr

/-- Initial state: empty queue, no latest analysis, nothing sent. -/
def initSys : SysState :=
  { queue := [], latest := none, lastSentId := none, sent := [] }

/-- Trace events, each tagged with its wall-clock time: the producer loop
emits an analysis; the distinguished client runs one generator iteration;
some other client consumes from the shared queue. -/
inductive Ev
  | produce (t : ℚ)
  | clientStep (t : ℚ)
  | otherPop (t : ℚ)
  deriving DecidableEq, Repr

/-- The wall-clock time of an event. -/
def Ev.time : Ev → ℚ
  | .produce t => t
  | .clientStep t => t
  | .otherPop t => t

/-- One step.  `produce`: lines 373-390 (rewrite timestamp, set
`latest_analysis`, drop-oldest push).  `clientStep`: lines 546-559 (pop,
or fall back to latest on an empty queue; send iff the id differs from
`last_sent_id`).  `otherPop`: another client's `queue.get`, removing the
head. -/
def step (D : ℚ) (cap : ℕ) (s : SysState) : Ev → SysState
  | .produce t =>
    let r := mkProduced D t
    { s with latest := some r, queue := pushDropOldest cap s.queue r }
  | .clientStep t =>
    match s.queue, s.latest with
    | [], none => s
    | [], some c =>
      if s.lastSentId = some c.analysisId then s
      else { s with lastSentId := some c.analysisId, sent := s.sent ++ [(t, c)] }
    | x :: rest, _ =>
      if s.lastSentId = some x.analysisId then { s with queue := rest }
      else
        { s with
          queue := rest
          lastSentId := some x.analysisId
          sent := s.sent ++ [(t, x)] }
  | .otherPop _ => { s with queue := s.queue.tail }

/-- Run a trace from the initial state. -/
def runTrace (D : ℚ) (cap : ℕ) (evs : List Ev) : SysState :=
  evs.foldl (step D cap) initSys

/-- Embeds `apply_stream_delay` (lines 271-280): called once after connecting at
time `t`; the read loop starts at the returned time. -/
def applyStreamDelay (D t : ℚ) : ℚ :=
  if D ≤ 0 then t else t + D

/-- A stored analysis is well-formed for delay `D` and horizon `tmax`:
its fields are those written by the producer, and it was produced no later
than `tmax`. -/
def GoodProduced (D tmax : ℚ) (r : Produced) : Prop :=
  r.timestamp = r.prodTime - D ∧ r.analysisId = pyInt (r.prodTime * 1000) ∧
    r.prodTime ≤ tmax

/-- Invariant of the trace machine at horizon `tmax` (all past event times
are at most `tmax`). -/
structure Inv (D : ℚ) (s : SysState) (tmax : ℚ) : Prop where
  qGood : ∀ r ∈ s.queue, GoodProduced D tmax r
  qSorted : s.queue.Pairwise (fun a b => a.prodTime ≤ b.prodTime)
  latestGood : ∀ r, s.latest = some r →
    GoodProduced D tmax r ∧ ∀ q ∈ s.queue, q.prodTime ≤ r.prodTime
  sentGood : ∀ p ∈ s.sent, GoodProduced D tmax p.2 ∧ p.2.prodTime ≤ p.1
  sentSorted : s.sent.Pairwise
    (fun a b => a.2.prodTime ≤ b.2.prodTime ∧ a.2.analysisId < b.2.analysisId)
  link : (s.lastSentId = none ∧ s.sent = []) ∨
    (∃ pre dt r0, s.sent = pre ++ [(dt, r0)] ∧
      s.lastSentId = some r0.analysisId ∧ GoodProduced D tmax r0 ∧
      (∀ q ∈ s.queue, r0.prodTime ≤ q.prodTime) ∧
      (∀ lr, s.latest = some lr → r0.prodTime ≤ lr.prodTime) ∧
      (∀ p ∈ s.sent, p.2.prodTime ≤ r0.prodTime ∧ p.2.analysisId ≤ r0.analysisId))

/-! ## Helper lemmas: the drop-oldest queue -/

theorem lastN_of_length_le {l : List α} {C : ℕ} (h : l.length ≤ C) :
    lastN C l = l := by
  simp [lastN, Nat.sub_eq_zero_of_le h]

theorem lastN_cons_of_le {m : List α} {C : ℕ} (y : α) (h : C ≤ m.length) :
    lastN C (y :: m) = lastN C m := by
  have h2 : (y :: m).length - C = (m.length - C) + 1 := by
    simp only [List.length_cons]; omega
  rw [lastN, lastN, h2, List.drop_succ_cons]

theorem length_lastN (C : ℕ) (l : List α) :
    (lastN C l).length = min C l.length := by
  simp [lastN]; omega

theorem pushAll_eq_lastN (C : ℕ) (hC : 1 ≤ C) :
    ∀ (xs q : List α), q.length ≤ C → pushAll C q xs = lastN C (q ++ xs)
  | [], q, hq => by
    simp [pushAll, lastN_of_length_le (by simpa using hq)]
  | x :: xs, q, hq => by
    show pushAll C (pushDropOldest C q x) xs = _
    by_cases h : q.length < C
    · rw [show pushDropOldest C q x = q ++ [x] from if_pos h,
        pushAll_eq_lastN C hC xs (q ++ [x]) (by simp; omega)]
      simp [List.append_assoc]
    · have hqC : q.length = C := le_antisymm hq (not_lt.mp h)
      obtain ⟨y, q', rfl⟩ : ∃ y q', q = y :: q' := by
        cases q with
        | nil => exact absurd hqC.symm (by simpa using Nat.pos_iff_ne_zero.mp hC)
        | cons y q' => exact ⟨y, q', rfl⟩
      rw [show pushDropOldest C (y :: q') x = q' ++ [x] from if_neg h,
        pushAll_eq_lastN C hC xs (q' ++ [x]) (by simp at hqC ⊢; omega)]
      rw [List.cons_append, lastN_cons_of_le y (by simp at hqC ⊢; omega)]
      simp [List.append_assoc]

/-! ## Helper lemmas: the classifier post-processing -/

theorem analyzeAudio_topClasses (names cats : ℕ → String) (rows : List (List ℚ))
    (now : ℚ) (snap : Bool × ℕ × ℕ) :
    (analyzeAudio names cats (some rows) now snap).topClasses
      = truncTop (sortedSurvivors names cats (avgScores rows)) := rfl

theorem survivors_conf_ge {names cats : ℕ → String} {avg : List ℚ} {c : TopClass}
    (hc : c ∈ survivors names cats avg) : (0.005 : ℚ) ≤ c.confidence := by
  simp only [survivors, List.mem_filterMap] at hc
  obtain ⟨idx, _, h⟩ := hc
  by_cases hlt : avg.getD idx 0 < 0.005
  · rw [if_pos hlt] at h; exact absurd h (by simp)
  · rw [if_neg hlt] at h
    injection h with h
    rw [← h]
    exact not_lt.mp hlt

theorem truncTop_sublist (l : List TopClass) : List.Sublist (truncTop l) l := by
  unfold truncTop
  split
  · exact List.take_sublist 15 l
  · exact List.Sublist.refl l

theorem truncTop_length_le (l : List TopClass) : (truncTop l).length ≤ 15 := by
  unfold truncTop
  split
  · simp
  · omega

theorem sortedSurvivors_perm (names cats : ℕ → String) (avg : List ℚ) :
    List.Perm (sortedSurvivors names cats avg) (survivors names cats avg) :=
  List.perm_insertionSort confGe _

theorem sortedSurvivors_sorted (names cats : ℕ → String) (avg : List ℚ) :
    List.Sorted confGe (sortedSurvivors names cats avg) :=
  List.sorted_insertionSort confGe _

/-! ## Claim theorems: C2, C9, C3 -/

/-- C2: pushing a sequence longer than the capacity `C` through the
drop-oldest queue leaves exactly `C` items — the `C` most recent pushes in
arrival order; a push onto a full queue evicts the head and appends the new
item; and a push never grows the queue beyond `C`. -/
theorem C2_queue_drop_oldest (C : ℕ) (xs q : List ℕ) (x : ℕ)
    (hC : 1 ≤ C) (hlen : C < xs.length) :
    (pushAll C [] xs).length = C ∧
    pushAll C [] xs = xs.drop (xs.length - C) ∧
    (q.length = C → pushDropOldest C q x = q.tail ++ [x]) ∧
    (q.length ≤ C → (pushDropOldest C q x).length ≤ C) := by
  have hmain := pushAll_eq_lastN C hC xs [] (by simp)
  simp only [List.nil_append] at hmain
  refine ⟨?_, ?_, ?_, ?_⟩
  · rw [hmain, length_lastN]; omega
  · rw [hmain]; rfl
  · intro hfull
    have : ¬ q.length < C := by omega
    simp [pushDropOldest, this]
  · intro hle
    rw [pushDropOldest]
    by_cases h : q.length < C
    · rw [if_pos h]; simp; omega
    · rw [if_neg h]
      simp [List.length_tail]; omega

/-- C2 witness: capacity 2, pushes `[10, 20, 30]`. -/
theorem C2_queue_drop_oldest_witness :
    (1 ≤ 2 ∧ 2 < ([10, 20, 30] : List ℕ).length) ∧
    ((pushAll 2 [] [10, 20, 30]).length = 2 ∧
      pushAll 2 [] [10, 20, 30] = ([10, 20, 30] : List ℕ).drop ([10, 20, 30].length - 2) ∧
      (([1, 2] : List ℕ).length = 2 → pushDropOldest 2 [1, 2] 7 = [1, 2].tail ++ [7]) ∧
      (([1, 2] : List ℕ).length ≤ 2 → (pushDropOldest 2 [1, 2] 7).length ≤ 2)) :=
  ⟨⟨by decide, by decide⟩,
    C2_queue_drop_oldest 2 [10, 20, 30] [1, 2] 7 (by decide) (by decide)⟩

/-- C9: `stop` is idempotent.  After one `stop` the analyzer is not running
and holds no subprocess handle; the same holds after a second `stop`, and
the second `stop` is a no-op (stopping an already-stopped pipeline changes
nothing). -/
theorem C9_stop_idempotent (s : AnalyzerState) :
    ((stop s).running = false ∧ (stop s).ffmpegProcess = none) ∧
    ((stop (stop s)).running = false ∧ (stop (stop s)).ffmpegProcess = none) ∧
    stop (stop s) = stop s := by
  rcases s with ⟨r, sr, p, pid, c⟩
  cases p <;> simp [stop, cleanupFfmpeg]

/-- C3: when the model invocation raises (modelled by `modelOut = none`),
`analyze_audio` does not propagate: it returns a sentinel result with an
empty `topClasses` list and `dominantCategory = "error"`, for every input. -/
theorem C3_classify_error_sentinel (names cats : ℕ → String) (now : ℚ)
    (snap : Bool × ℕ × ℕ) :
    (analyzeAudio names cats none now snap).topClasses = [] ∧
    (analyzeAudio names cats none now snap).dominantCategory = "error" := by
  simp [analyzeAudio]

/-- C6: with the 0.005 confidence floor, the mock score vector
`[0.9, 0.3, 0.004, 0.001]` yields exactly the two entries `[0.9, 0.3]` in
descending order; and in general the returned entries all sit at or above
the floor, are sorted confidence-descending, and number at most 15. -/
theorem C6_floor_sort_truncate (names cats : ℕ → String) (rows : List (List ℚ))
    (now : ℚ) (snap : Bool × ℕ × ℕ) :
    ((analyzeAudio names cats (some [[9/10, 3/10, 1/250, 1/1000]]) now snap).topClasses.map
        (fun c => c.confidence) = [9/10, 3/10]) ∧
    (analyzeAudio names cats (some rows) now snap).topClasses.length ≤ 15 ∧
    List.Sorted confGe ((analyzeAudio names cats (some rows) now snap).topClasses) ∧
    (∀ c ∈ (analyzeAudio names cats (some rows) now snap).topClasses,
      (0.005 : ℚ) ≤ c.confidence) := by
  refine ⟨?_, ?_, ?_, ?_⟩
  · norm_num [analyzeAudio, truncTop, sortedSurvivors, survivors, topIndices, avgScores,
      lastN, confGe, List.insertionSort, List.orderedInsert, List.range_succ,
      List.filterMap_cons]
  · rw [analyzeAudio_topClasses]
    exact truncTop_length_le _
  · rw [analyzeAudio_topClasses]
    exact (sortedSurvivors_sorted names cats _).sublist (truncTop_sublist _)
  · intro c hc
    rw [analyzeAudio_topClasses] at hc
    exact survivors_conf_ge
      (((sortedSurvivors_perm names cats _).mem_iff).mp
        ((truncTop_sublist _).mem hc))

/-- C6 witness: the top entry of the mock result sits above the floor. -/
theorem C6_floor_sort_truncate_witness :
    ((⟨0, "x", 9/10, "o", getCategoryColor "o"⟩ : TopClass) ∈
      (analyzeAudio (fun _ => "x") (fun _ => "o")
        (some [[9/10, 3/10, 1/250, 1/1000]]) 0 (false, 0, 0)).topClasses) ∧
    (0.005 : ℚ) ≤ (⟨0, "x", 9/10, "o", getCategoryColor "o"⟩ : TopClass).confidence :=
  have hmem : (⟨0, "x", 9/10, "o", getCategoryColor "o"⟩ : TopClass) ∈
      (analyzeAudio (fun _ => "x") (fun _ => "o")
        (some [[9/10, 3/10, 1/250, 1/1000]]) 0 (false, 0, 0)).topClasses := by
    norm_num [analyzeAudio, truncTop, sortedSurvivors, survivors, topIndices, avgScores,
      lastN, confGe, List.insertionSort, List.orderedInsert, List.range_succ,
      List.filterMap_cons, getCategoryColor]
  ⟨hmem, (C6_floor_sort_truncate (fun _ => "x") (fun _ => "o")
    [[9/10, 3/10, 1/250, 1/1000]] 0 (false, 0, 0)).2.2.2 _ hmem⟩

/-- C10: on the success path, `totalConfidence` is the sum of the
confidences of all entries surviving the 0.005 floor, accumulated before
the truncation to 15; when more than 15 entries survive it therefore
strictly exceeds the summed confidences of the entries actually returned. -/
theorem C10_totalConfidence_pre_truncation (names cats : ℕ → String)
    (rows : List (List ℚ)) (now : ℚ) (snap : Bool × ℕ × ℕ) :
    ((analyzeAudio names cats (some rows) now snap).totalConfidence
        = ((survivors names cats (avgScores rows)).map (fun c => c.confidence)).sum) ∧
    (15 < (survivors names cats (avgScores rows)).length →
      ((analyzeAudio names cats (some rows) now snap).topClasses.map
          (fun c => c.confidence)).sum
        < (analyzeAudio names cats (some rows) now snap).totalConfidence) := by
  constructor
  · rfl
  · intro hlong
    have hperm := sortedSurvivors_perm names cats (avgScores rows)
    have hlen : 15 < (sortedSurvivors names cats (avgScores rows)).length := by
      rw [hperm.length_eq]; exact hlong
    have htrunc : truncTop (sortedSurvivors names cats (avgScores rows))
        = (sortedSurvivors names cats (avgScores rows)).take 15 := if_pos hlen
    have hsum : ((survivors names cats (avgScores rows)).map (fun c => c.confidence)).sum
        = ((sortedSurvivors names cats (avgScores rows)).map (fun c => c.confidence)).sum :=
      ((hperm.map (fun c => c.confidence)).sum_eq).symm
    have hsplit : (sortedSurvivors names cats (avgScores rows)).map (fun c => c.confidence)
        = ((sortedSurvivors names cats (avgScores rows)).take 15).map (fun c => c.confidence)
          ++ ((sortedSurvivors names cats (avgScores rows)).drop 15).map
              (fun c => c.confidence) := by
      rw [← List.map_append, List.take_append_drop]
    have hpos : 0 < (((sortedSurvivors names cats (avgScores rows)).drop 15).map
        (fun c => c.confidence)).sum := by
      apply List.sum_pos
      · intro x hx
        simp only [List.mem_map] at hx
        obtain ⟨c, hc, rfl⟩ := hx
        have : (0.005 : ℚ) ≤ c.confidence :=
          survivors_conf_ge ((hperm.mem_iff).mp (List.mem_of_mem_drop hc))
        linarith [this]
      · intro hnil
        have hd : (sortedSurvivors names cats (avgScores rows)).drop 15 = [] :=
          List.map_eq_nil_iff.mp hnil
        have hd2 := congrArg List.length hd
        simp only [List.length_drop, List.length_nil] at hd2
        omega
    rw [analyzeAudio_topClasses, htrunc]
    show _ < (analyzeAudio names cats (some rows) now snap).totalConfidence
    rw [show (analyzeAudio names cats (some rows) now snap).totalConfidence
        = ((survivors names cats (avgScores rows)).map (fun c => c.confidence)).sum from rfl,
      hsum, hsplit, List.sum_append]
    linarith

set_option maxHeartbeats 2000000 in
/-- C10 witness: sixteen scores all above the floor. -/
theorem C10_totalConfidence_pre_truncation_witness :
    (15 < (survivors (fun _ => "x") (fun _ => "other")
        (avgScores [[2/200, 3/200, 4/200, 5/200, 6/200, 7/200, 8/200, 9/200, 10/200,
          11/200, 12/200, 13/200, 14/200, 15/200, 16/200, 17/200]])).length) ∧
    ((analyzeAudio (fun _ => "x") (fun _ => "other")
        (some [[2/200, 3/200, 4/200, 5/200, 6/200, 7/200, 8/200, 9/200, 10/200,
          11/200, 12/200, 13/200, 14/200, 15/200, 16/200, 17/200]]) 0 (false, 0, 0)).topClasses.map
        (fun c => c.confidence)).sum
      < (analyzeAudio (fun _ => "x") (fun _ => "other")
        (some [[2/200, 3/200, 4/200, 5/200, 6/200, 7/200, 8/200, 9/200, 10/200,
          11/200, 12/200, 13/200, 14/200, 15/200, 16/200, 17/200]]) 0 (false, 0, 0)).totalConfidence :=
  have h : 15 < (survivors (fun _ => "x") (fun _ => "other")
      (avgScores [[2/200, 3/200, 4/200, 5/200, 6/200, 7/200, 8/200, 9/200, 10/200,
        11/200, 12/200, 13/200, 14/200, 15/200, 16/200, 17/200]])).length := by
    norm_num [survivors, topIndices, avgScores, lastN, List.insertionSort,
      List.orderedInsert, List.range_succ, List.filterMap_cons]
  ⟨h, (C10_totalConfidence_pre_truncation (fun _ => "x") (fun _ => "other") _ 0 (false, 0, 0)).2 h⟩

/-! ## Helper lemmas: the read loop -/

theorem runReadLoop_not_stalled (maxEmpty chunkSize : ℕ) :
    ∀ (reads : List ReadChunk) (e : ℕ) (frames : List (List ℚ)),
      emptyRunsBounded maxEmpty reads e = true →
      (runReadLoop maxEmpty chunkSize reads e frames).2 ≠ LoopExit.stalled
  | [], _, _, _ => by simp [runReadLoop]
  | r :: rs, e, frames, hb => by
    rw [runReadLoop]
    by_cases hz : r.data.length = 0
    · rw [if_pos hz]
      rw [emptyRunsBounded, if_pos hz, Bool.and_eq_true, decide_eq_true_eq] at hb
      by_cases hf : r.fatalStderr
      · simp [hf]
      · rw [if_neg (by simpa using hf), if_neg (by omega)]
        exact runReadLoop_not_stalled maxEmpty chunkSize rs (e + 1) frames hb.2
    · rw [if_neg hz]
      rw [emptyRunsBounded, if_neg hz] at hb
      by_cases hp : 2 * r.data.length < chunkSize
      · rw [if_pos hp]
        exact runReadLoop_not_stalled maxEmpty chunkSize rs 0 frames hb
      · rw [if_neg hp]
        exact runReadLoop_not_stalled maxEmpty chunkSize rs 0 _ hb

/-- C8: the read loop stalls only when a run of consecutive empty reads
drives the counter beyond the bound (a zero-byte read alone is not an
error, and any successful read resets the counter); in particular five
empty reads followed by one full chunk assemble and classify that frame
without stalling. -/
theorem C8_empty_read_tolerance (maxEmpty chunkSize : ℕ) (reads : List ReadChunk)
    (e : ℕ) (frames : List (List ℚ)) (d : List ℤ) :
    (emptyRunsBounded maxEmpty reads e = true →
      (runReadLoop maxEmpty chunkSize reads e frames).2 ≠ LoopExit.stalled) ∧
    (d.length = 16000 →
      runReadLoop 100 16000 (List.replicate 5 ⟨[], false⟩ ++ [⟨d, false⟩]) 0 []
        = ([normalize d], LoopExit.inputExhausted)) := by
  constructor
  · exact runReadLoop_not_stalled maxEmpty chunkSize reads e frames
  · intro hd
    norm_num [runReadLoop, List.replicate_succ, hd]

/-- C8 witness: a single empty read under the bound, and a full
16000-sample chunk after five empty reads. -/
theorem C8_empty_read_tolerance_witness :
    (emptyRunsBounded 100 [⟨[], false⟩] 0 = true ∧
      (List.replicate 16000 (0 : ℤ)).length = 16000) ∧
    ((runReadLoop 100 16000 [⟨[], false⟩] 0 []).2 ≠ LoopExit.stalled ∧
      runReadLoop 100 16000
          (List.replicate 5 ⟨[], false⟩ ++ [⟨List.replicate 16000 (0 : ℤ), false⟩]) 0 []
        = ([normalize (List.replicate 16000 (0 : ℤ))], LoopExit.inputExhausted)) :=
  ⟨⟨by decide, by rw [List.length_replicate]⟩,
    ⟨(C8_empty_read_tolerance 100 16000 [⟨[], false⟩] 0 [] []).1 (by decide),
      (C8_empty_read_tolerance 100 16000 [] 0 [] (List.replicate 16000 (0 : ℤ))).2
        (by rw [List.length_replicate])⟩⟩

/-! ## Claim theorems: C5 -/

/-- C5 counterexample: one failed launch followed by one successful launch
is two connection attempts, but `state.connection_attempts` (third
component carried by `runAttempts`, incremented only at line 320 on the
success path) ends at 1, not 2 — failed attempts are not counted. -/
theorem C5_counterexample :
    runAttempts [false, true] 0 0 [] = (1, [5], true) ∧
    ([false, true] : List Bool).length = 2 ∧ (1 : ℕ) ≠ 2 :=
  ⟨by decide, by decide, by decide⟩

/-- C5 amended: when the decoder dies mid-stream the loop cleans up the
subprocess and leaves the connected state, then relaunches; backoff waits
are capped at 300 s; and `state.connection_attempts` is incremented exactly
once per *successful* connection — failed launch attempts do not change it. -/
theorem C5_attempts_count_successes (outcomes : List Bool) (k a : ℕ) (w : List ℕ)
    (s : AnalyzerState) :
    ((true ∈ outcomes →
        (runAttempts outcomes k a w).1 = a + 1 ∧ (runAttempts outcomes k a w).2.2 = true) ∧
      (true ∉ outcomes → (runAttempts outcomes k a w).1 = a)) ∧
    (∀ x ∈ (runAttempts outcomes k a w).2.1, x ∈ w ∨ x ≤ 300) ∧
    ((onStreamEnd s).connected = false ∧ (onStreamEnd s).ffmpegProcess = none) := by
  refine ⟨?_, ?_, ?_⟩
  · induction outcomes generalizing k a w with
    | nil => simp [runAttempts]
    | cons o os ih =>
      cases o
      · refine ⟨fun hmem => ?_, fun hmem => ?_⟩
        · rw [show runAttempts (false :: os) k a w
              = runAttempts os (k + 1) a (w ++ [min (5 * 2 ^ k) 300]) from rfl]
          exact (ih (k + 1) a (w ++ [min (5 * 2 ^ k) 300])).1 (by simpa using hmem)
        · rw [show runAttempts (false :: os) k a w
              = runAttempts os (k + 1) a (w ++ [min (5 * 2 ^ k) 300]) from rfl]
          exact (ih (k + 1) a (w ++ [min (5 * 2 ^ k) 300])).2 (by simp at hmem ⊢; exact hmem)
      · exact ⟨fun _ => ⟨rfl, rfl⟩, fun hmem => absurd (by simp) hmem⟩
  · induction outcomes generalizing k a w with
    | nil => intro x hx; simp [runAttempts] at hx; exact Or.inl hx
    | cons o os ih =>
      cases o
      · intro x hx
        rw [show runAttempts (false :: os) k a w
            = runAttempts os (k + 1) a (w ++ [min (5 * 2 ^ k) 300]) from rfl] at hx
        rcases ih (k + 1) a (w ++ [min (5 * 2 ^ k) 300]) x hx with h | h
        · simp at h
          rcases h with h | h
          · exact Or.inl h
          · exact Or.inr (by omega)
        · exact Or.inr h
      · intro x hx
        exact Or.inl (by simpa [runAttempts] using hx)
  · rcases s with ⟨r, sr, p, pid, c⟩
    cases p <;> simp [onStreamEnd, cleanupFfmpeg]

/-- C5 amended witness: a failed then a successful launch increments the
counter once; an all-failed sequence leaves it unchanged. -/
theorem C5_attempts_count_successes_witness :
    (true ∈ [false, true] ∧
      (runAttempts [false, true] 0 0 []).1 = 0 + 1 ∧
      (runAttempts [false, true] 0 0 []).2.2 = true) ∧
    (true ∉ [false, false] ∧ (runAttempts [false, false] 0 0 []).1 = 0) :=
  ⟨⟨by decide,
      (C5_attempts_count_successes [false, true] 0 0 [] ⟨false, false, none, none, false⟩).1.1
        (by decide)⟩,
    ⟨by decide,
      (C5_attempts_count_successes [false, false] 0 0 [] ⟨false, false, none, none, false⟩).1.2
        (by decide)⟩⟩

/-! ## Helper lemmas: first occurrences and category sums -/

theorem mem_firstOccsAux (m : List String) :
    ∀ (acc : List String) (x : String),
      (x ∈ m.foldl (fun acc a => if a ∈ acc then acc else acc ++ [a]) acc)
        ↔ x ∈ acc ∨ x ∈ m := by
  induction m with
  | nil => intro acc x; simp
  | cons a m ih =>
    intro acc x
    rw [List.foldl_cons, ih]
    by_cases h : a ∈ acc
    · rw [if_pos h]
      simp only [List.mem_cons]
      constructor
      · rintro (hx | hx)
        · exact Or.inl hx
        · exact Or.inr (Or.inr hx)
      · rintro (hx | rfl | hx)
        · exact Or.inl hx
        · exact Or.inl h
        · exact Or.inr hx
    · rw [if_neg h]
      simp only [List.mem_append, List.mem_singleton, List.mem_cons]
      tauto

theorem mem_firstOccs (m : List String) (x : String) :
    x ∈ firstOccs m ↔ x ∈ m := by
  rw [firstOccs, mem_firstOccsAux]
  simp

theorem nodup_firstOccsAux (m : List String) :
    ∀ acc : List String, acc.Nodup →
      (m.foldl (fun acc a => if a ∈ acc then acc else acc ++ [a]) acc).Nodup := by
  induction m with
  | nil => intro acc h; simpa using h
  | cons a m ih =>
    intro acc h
    rw [List.foldl_cons]
    by_cases hm : a ∈ acc
    · rw [if_pos hm]; exact ih acc h
    · rw [if_neg hm]
      exact ih _ (by simp [List.nodup_append, h, hm])

theorem nodup_firstOccs (m : List String) : (firstOccs m).Nodup :=
  nodup_firstOccsAux m [] List.nodup_nil

theorem firstOccs_concat (m : List String) (a : String) :
    firstOccs (m ++ [a]) = if a ∈ m then firstOccs m else firstOccs m ++ [a] := by
  have h1 : firstOccs (m ++ [a])
      = if a ∈ firstOccs m then firstOccs m else firstOccs m ++ [a] := by
    rw [firstOccs, List.foldl_append, List.foldl_cons, List.foldl_nil]
    rfl
  rw [h1]
  simp only [mem_firstOccs]

theorem catSum_concat (c : String) (l : List TopClass) (x : TopClass) :
    catSum c (l ++ [x]) = catSum c l + (if x.category = c then x.confidence else 0) := by
  rw [catSum, catSum, List.filter_append]
  by_cases h : x.category = c
  · simp [List.filter_cons, h]
  · simp [List.filter_cons, h]

theorem catSum_of_not_mem {c : String} {l : List TopClass}
    (h : c ∉ l.map (fun t => t.category)) : catSum c l = 0 := by
  have : l.filter (fun t => t.category = c) = [] := by
    rw [List.filter_eq_nil_iff]
    intro t ht hc
    exact h (List.mem_map.mpr ⟨t, ht, by simpa using hc⟩)
  rw [catSum, this]
  simp

/-- The `category_scores` association list: its keys are the categories in
first-occurrence order, and each value is the summed confidence of its key. -/
theorem catScores_spec (l : List TopClass) :
    (catScores l).map Prod.fst = firstOccs (l.map (fun t => t.category)) ∧
    (∀ p ∈ catScores l, p.2 = catSum p.1 l) := by
  induction l using List.reverseRecOn with
  | nil =>
    constructor
    · rfl
    · intro p hp; simp [catScores] at hp
  | append_singleton l x ih =>
    obtain ⟨hkeys, hvals⟩ := ih
    have hcs : catScores (l ++ [x]) = addScore (catScores l) x := by
      rw [catScores, catScores, List.foldl_append, List.foldl_cons, List.foldl_nil]
    have hmap : (l ++ [x]).map (fun t => t.category)
        = l.map (fun t => t.category) ++ [x.category] := by simp
    by_cases hmem : x.category ∈ (catScores l).map Prod.fst
    · have hxm : x.category ∈ l.map (fun t => t.category) :=
        (mem_firstOccs _ _).mp (hkeys ▸ hmem)
      have hany : (catScores l).any (fun p => p.1 = x.category) = true := by
        simp only [List.any_eq_true]
        obtain ⟨p, hp, hfst⟩ := List.mem_map.mp hmem
        exact ⟨p, hp, by simp [hfst]⟩
      have haddr : addScore (catScores l) x
          = (catScores l).map
              (fun p => if p.1 = x.category then (p.1, p.2 + x.confidence) else p) := by
        rw [addScore, if_pos hany]
      constructor
      · rw [hcs, haddr, hmap, firstOccs_concat, if_pos hxm, ← hkeys, List.map_map]
        apply List.map_congr_left
        intro p _
        by_cases hp1 : p.1 = x.category
        · simp [Function.comp, hp1]
        · simp [Function.comp, hp1]
      · intro p hp
        rw [hcs, haddr] at hp
        obtain ⟨q, hq, rfl⟩ := List.mem_map.mp hp
        by_cases hq1 : q.1 = x.category
        · rw [if_pos hq1]
          show q.2 + x.confidence = catSum q.1 (l ++ [x])
          rw [catSum_concat, hvals q hq, if_pos hq1.symm]
        · rw [if_neg hq1]
          rw [catSum_concat, if_neg (fun hh => hq1 hh.symm), add_zero]
          exact hvals q hq
    · have hxm : x.category ∉ l.map (fun t => t.category) :=
        fun h => hmem (hkeys ▸ (mem_firstOccs _ _).mpr h)
      have hany : ¬ (catScores l).any (fun p => p.1 = x.category) = true := by
        intro hc
        rw [List.any_eq_true] at hc
        obtain ⟨p, hp, hpt⟩ := hc
        exact hmem (List.mem_map.mpr ⟨p, hp, by simpa using hpt⟩)
      have haddr : addScore (catScores l) x
          = catScores l ++ [(x.category, x.confidence)] := by
        rw [addScore, if_neg hany]
      constructor
      · rw [hcs, haddr, hmap, firstOccs_concat, if_neg hxm, List.map_append, hkeys]
        rfl
      · intro p hp
        rw [hcs, haddr] at hp
        rcases List.mem_append.mp hp with hp | hp
        · rw [catSum_concat, if_neg, add_zero]
          · exact hvals p hp
          · intro hh
            exact hmem (List.mem_map.mpr ⟨p, hp, hh.symm⟩)
        · have hp' : p = (x.category, x.confidence) := by simpa using hp
          subst hp'
          show x.confidence = catSum x.category (l ++ [x])
          rw [catSum_concat, catSum_of_not_mem hxm, if_pos rfl, zero_add]

/-! ## Helper lemmas: Python `max` semantics (first maximum wins) -/

theorem pyFold_stay :
    ∀ (xs : List (String × ℚ)) (b : String × ℚ), (∀ y ∈ xs, y.2 ≤ b.2) →
      xs.foldl (fun b y => if b.2 < y.2 then y else b) b = b
  | [], _, _ => rfl
  | y :: ys, b, h => by
    rw [List.foldl_cons, if_neg (not_lt.mpr (h y (by simp)))]
    exact pyFold_stay ys b (fun z hz => h z (by simp [hz]))

theorem pyFold_bound :
    ∀ (xs : List (String × ℚ)) (b : String × ℚ),
      b.2 ≤ (xs.foldl (fun b y => if b.2 < y.2 then y else b) b).2 ∧
      ∀ y ∈ xs, y.2 ≤ (xs.foldl (fun b y => if b.2 < y.2 then y else b) b).2
  | [], b => ⟨le_refl _, by simp⟩
  | y :: ys, b => by
    rw [List.foldl_cons]
    have h1 : b.2 ≤ (if b.2 < y.2 then y else b).2 := by
      split
      · exact le_of_lt (by assumption)
      · exact le_refl _
    have h2 : y.2 ≤ (if b.2 < y.2 then y else b).2 := by
      split
      · exact le_refl _
      · exact not_lt.mp (by assumption)
    obtain ⟨ha, hb⟩ := pyFold_bound ys (if b.2 < y.2 then y else b)
    refine ⟨le_trans h1 ha, ?_⟩
    intro z hz
    rcases List.mem_cons.mp hz with rfl | hz
    · exact le_trans h2 ha
    · exact hb z hz

theorem pyFold_mem :
    ∀ (xs : List (String × ℚ)) (b : String × ℚ),
      xs.foldl (fun b y => if b.2 < y.2 then y else b) b = b ∨
      xs.foldl (fun b y => if b.2 < y.2 then y else b) b ∈ xs
  | [], _ => Or.inl rfl
  | y :: ys, b => by
    rw [List.foldl_cons]
    rcases pyFold_mem ys (if b.2 < y.2 then y else b) with h | h
    · rw [h]
      split
      · exact Or.inr (by simp)
      · exact Or.inl rfl
    · exact Or.inr (List.mem_cons_of_mem _ h)

theorem pyFold_reach :
    ∀ (u : List (String × ℚ)) (b p : String × ℚ) (v : List (String × ℚ)),
      (∀ y ∈ u, y.2 < p.2) → b.2 < p.2 → (∀ y ∈ v, y.2 ≤ p.2) →
      (u ++ p :: v).foldl (fun b y => if b.2 < y.2 then y else b) b = p
  | [], b, p, v, _, hb, hv => by
    rw [List.nil_append, List.foldl_cons, if_pos hb]
    exact pyFold_stay v p hv
  | y :: u, b, p, v, hu, hb, hv => by
    rw [List.cons_append, List.foldl_cons]
    have hlt : (if b.2 < y.2 then y else b).2 < p.2 := by
      split
      · exact hu y (by simp)
      · exact hb
    exact pyFold_reach u _ p v (fun z hz => hu z (by simp [hz])) hlt hv

theorem pyMaxBy_decomp (u : List (String × ℚ)) (p : String × ℚ)
    (v : List (String × ℚ)) (hu : ∀ y ∈ u, y.2 < p.2) (hv : ∀ y ∈ v, y.2 ≤ p.2) :
    pyMaxBy (u ++ p :: v) = p := by
  cases u with
  | nil =>
    show v.foldl (fun b y => if b.2 < y.2 then y else b) p = p
    exact pyFold_stay v p hv
  | cons b u =>
    show (u ++ p :: v).foldl (fun b y => if b.2 < y.2 then y else b) b = p
    exact pyFold_reach u b p v (fun z hz => hu z (by simp [hz])) (hu b (by simp)) hv

theorem findDecomp {α : Type _} :
    ∀ (l : List α) (p : α → Bool) (a : α), l.find? p = some a →
      ∃ u v, l = u ++ a :: v ∧ ∀ y ∈ u, p y = false
  | [], _, _, h => by simp at h
  | x :: xs, p, a, h => by
    rcases hpx : p x with _ | _
    · rw [List.find?_cons, hpx] at h
      obtain ⟨u, v, heq, hu⟩ := findDecomp xs p a h
      refine ⟨x :: u, v, by rw [heq]; rfl, ?_⟩
      intro y hy
      rcases List.mem_cons.mp hy with rfl | hy
      · exact hpx
      · exact hu y hy
    · rw [List.find?_cons, hpx] at h
      refine ⟨[], xs, ?_, by simp⟩
      injection h with h
      subst h
      rfl

theorem findAgree {α : Type _} :
    ∀ (l : List α) (p q : α → Bool), (∀ x ∈ l, p x = q x) →
      l.find? p = l.find? q
  | [], _, _, _ => rfl
  | x :: xs, p, q, h => by
    rw [List.find?_cons, List.find?_cons, h x (by simp),
      findAgree xs p q (fun z hz => h z (by simp [hz]))]

/-- Python `max` with `default=('other', 0)` returns the first element
attaining the maximal value. -/
theorem pyMaxBy_eq_firstMax (al : List (String × ℚ)) (hne : al ≠ []) :
    ∃ p, al.find? (fun r => al.all (fun q => decide (q.2 ≤ r.2))) = some p ∧
      pyMaxBy al = p := by
  obtain ⟨x, xs, habl⟩ := List.exists_cons_of_ne_nil hne
  have hbound : ∀ q ∈ al, q.2 ≤ (pyMaxBy al).2 := by
    rw [habl]
    intro q hq
    have hb := pyFold_bound xs x
    rcases List.mem_cons.mp hq with rfl | hq
    · exact hb.1
    · exact hb.2 q hq
  have hmem : pyMaxBy al ∈ al := by
    rw [habl]
    rcases pyFold_mem xs x with h | h
    · rw [show pyMaxBy (x :: xs)
          = xs.foldl (fun b y => if b.2 < y.2 then y else b) x from rfl, h]
      exact List.mem_cons_self x xs
    · exact List.mem_cons_of_mem _ h
  rcases hfind : al.find? (fun r => al.all (fun q => decide (q.2 ≤ r.2))) with _ | p
  · exfalso
    apply List.find?_eq_none.mp hfind (pyMaxBy al) hmem
    simp only [List.all_eq_true, decide_eq_true_eq]
    exact hbound
  · obtain ⟨u, v, hsplit, hu⟩ := findDecomp al _ p hfind
    have hPp := List.find?_some hfind
    simp only [List.all_eq_true, decide_eq_true_eq] at hPp
    refine ⟨p, hfind, ?_⟩
    rw [hsplit]
    apply pyMaxBy_decomp
    · intro y hy
      have hyf := hu y hy
      obtain ⟨q, hq, hqy⟩ := List.all_eq_false.mp hyf
      have hqy2 : ¬ q.2 ≤ y.2 := by simpa using hqy
      exact lt_of_lt_of_le (not_le.mp hqy2) (hPp q hq)
    · intro y hy
      have hmemy : y ∈ al := by
        rw [hsplit]
        exact List.mem_append.mpr (Or.inr (List.mem_cons_of_mem _ hy))
      exact hPp y hmemy

/-- The code's dominant-category computation (insertion-ordered
`defaultdict` accumulation followed by Python `max`) agrees with the
specification-side `dominantSpec`. -/
theorem dominant_eq_dominantSpec (l : List TopClass) :
    (pyMaxBy (catScores l)).1 = dominantSpec l := by
  obtain ⟨hkeys, hvals⟩ := catScores_spec l
  rcases eq_or_ne l [] with rfl | hne
  · rfl
  · have halne : catScores l ≠ [] := by
      intro hc
      rw [hc] at hkeys
      have hm : l.map (fun t => t.category) = [] := by
        by_contra hmne
        obtain ⟨c, hcm⟩ := List.exists_mem_of_ne_nil _ hmne
        have hcf : c ∈ firstOccs (l.map (fun t => t.category)) :=
          (mem_firstOccs _ _).mpr hcm
        rw [← hkeys] at hcf
        simp at hcf
      exact hne (List.map_eq_nil_iff.mp hm)
    obtain ⟨p, hfind, hmax⟩ := pyMaxBy_eq_firstMax (catScores l) halne
    rw [hmax, dominantSpec]
    have hagree : ∀ r ∈ catScores l,
        ((fun c => (l.map (fun t => t.category)).all
            (fun d => decide (catSum d l ≤ catSum c l))) ∘ Prod.fst) r
          = (fun r => (catScores l).all (fun q => decide (q.2 ≤ r.2))) r := by
      intro r hr
      apply Bool.eq_iff_iff.mpr
      simp only [Function.comp_apply, List.all_eq_true, decide_eq_true_eq]
      constructor
      · intro h q hq
        have hq1 : q.1 ∈ l.map (fun t => t.category) := by
          apply (mem_firstOccs _ _).mp
          rw [← hkeys]
          exact List.mem_map.mpr ⟨q, hq, rfl⟩
        rw [hvals q hq, hvals r hr]
        exact h q.1 hq1
      · intro h d hd
        have hdk : d ∈ (catScores l).map Prod.fst := by
          rw [hkeys]
          exact (mem_firstOccs _ _).mpr hd
        obtain ⟨q, hq, hqd⟩ := List.mem_map.mp hdk
        rw [← hqd, ← hvals q hq, ← hvals r hr]
        exact h q hq
    have hkf : (firstOccs (l.map (fun t => t.category))).find?
        (fun c => (l.map (fun t => t.category)).all
          (fun d => decide (catSum d l ≤ catSum c l))) = some p.1 := by
      rw [← hkeys, List.find?_map, findAgree (catScores l) _ _ hagree, hfind]
      rfl
    rw [hkf]

/-! ## Claim theorem: C7 -/

/-- C7: on the success path, `dominantCategory` is the category with the
highest summed confidence among the surviving (post-filter,
post-truncation) entries, ties resolved in favour of the category
appearing first in the confidence-descending entry order, and `"other"`
when no entries survive. -/
theorem C7_dominant_category (names cats : ℕ → String) (rows : List (List ℚ))
    (now : ℚ) (snap : Bool × ℕ × ℕ) :
    ((analyzeAudio names cats (some rows) now snap).dominantCategory
      = dominantSpec ((analyzeAudio names cats (some rows) now snap).topClasses)) ∧
    ((analyzeAudio names cats (some rows) now snap).topClasses = [] →
      (analyzeAudio names cats (some rows) now snap).dominantCategory = "other") := by
  have h := dominant_eq_dominantSpec
    (truncTop (sortedSurvivors names cats (avgScores rows)))
  constructor
  · rw [analyzeAudio_topClasses]
    exact h
  · intro hnil
    rw [analyzeAudio_topClasses] at hnil
    have hd : (analyzeAudio names cats (some rows) now snap).dominantCategory
        = (pyMaxBy (catScores
            (truncTop (sortedSurvivors names cats (avgScores rows))))).1 := rfl
    rw [hd, hnil]
    rfl

/-- C7 witness: an empty score row yields no entries and dominant
category `"other"`. -/
theorem C7_dominant_category_witness :
    ((analyzeAudio (fun _ => "x") (fun _ => "o") (some [[]]) 0 (false, 0, 0)).topClasses
      = []) ∧
    ((analyzeAudio (fun _ => "x") (fun _ => "o") (some [[]]) 0 (false, 0, 0)).dominantCategory
      = "other") :=
  ⟨rfl, (C7_dominant_category (fun _ => "x") (fun _ => "o") [[]] 0 (false, 0, 0)).2 rfl⟩

/-! ## Helper lemmas: trace machine invariant -/

theorem pyInt_mono {a b : ℚ} (h : a ≤ b) : pyInt a ≤ pyInt b := by
  unfold pyInt
  by_cases ha : 0 ≤ a
  · rw [if_pos ha, if_pos (le_trans ha h)]
    exact Int.floor_le_floor h
  · rw [if_neg ha]
    by_cases hb : 0 ≤ b
    · rw [if_pos hb]
      calc ⌈a⌉ ≤ 0 := Int.ceil_le.mpr (by exact_mod_cast le_of_not_le ha)
        _ ≤ ⌊b⌋ := Int.floor_nonneg.mpr hb
    · rw [if_neg hb]
      exact Int.ceil_le_ceil h

theorem GoodProduced.mono {D tmax tmax' : ℚ} {r : Produced}
    (h : GoodProduced D tmax r) (ht : tmax ≤ tmax') : GoodProduced D tmax' r :=
  ⟨h.1, h.2.1, le_trans h.2.2 ht⟩

theorem goodId_le {D tmax : ℚ} {a b : Produced} (ha : GoodProduced D tmax a)
    (hb : GoodProduced D tmax b) (h : a.prodTime ≤ b.prodTime) :
    a.analysisId ≤ b.analysisId := by
  rw [ha.2.1, hb.2.1]
  exact pyInt_mono (by linarith)

theorem mem_pushDropOldest {cap : ℕ} {q : List α} {x y : α}
    (h : y ∈ pushDropOldest cap q x) : y ∈ q ∨ y = x := by
  unfold pushDropOldest at h
  split at h <;> rcases List.mem_append.mp h with h | h
  · exact Or.inl h
  · exact Or.inr (by simpa using h)
  · exact Or.inl (List.mem_of_mem_tail h)
  · exact Or.inr (by simpa using h)

theorem pairwise_pushDropOldest {cap : ℕ} {q : List α} {x : α}
    {R : α → α → Prop} (hq : q.Pairwise R) (hx : ∀ a ∈ q, R a x) :
    (pushDropOldest cap q x).Pairwise R := by
  unfold pushDropOldest
  split
  · rw [List.pairwise_append]
    refine ⟨hq, List.pairwise_singleton _ _, ?_⟩
    intro a ha b hb
    rw [List.mem_singleton.mp hb]
    exact hx a ha
  · rw [List.pairwise_append]
    refine ⟨hq.sublist (List.tail_sublist q), List.pairwise_singleton _ _, ?_⟩
    intro a ha b hb
    rw [List.mem_singleton.mp hb]
    exact hx a (List.mem_of_mem_tail ha)

theorem inv_init (D t : ℚ) : Inv D initSys t := by
  refine ⟨?_, ?_, ?_, ?_, ?_, Or.inl ⟨rfl, rfl⟩⟩ <;> simp [initSys]

theorem Inv.monoT {D : ℚ} {s : SysState} {t t' : ℚ} (h : Inv D s t)
    (ht : t ≤ t') : Inv D s t' := by
  refine ⟨fun r hr => (h.qGood r hr).mono ht, h.qSorted,
    fun r hr => ⟨(h.latestGood r hr).1.mono ht, (h.latestGood r hr).2⟩,
    fun p hp => ⟨(h.sentGood p hp).1.mono ht, (h.sentGood p hp).2⟩,
    h.sentSorted, ?_⟩
  rcases h.link with hl | ⟨pre, dt, r0, h1, h2, h3, h4, h5, h6⟩
  · exact Or.inl hl
  · exact Or.inr ⟨pre, dt, r0, h1, h2, h3.mono ht, h4, h5, h6⟩

theorem inv_step {D : ℚ} (cap : ℕ) {s : SysState} {tmax : ℚ}
    (hinv : Inv D s tmax) (e : Ev) (ht : tmax ≤ e.time) :
    Inv D (step D cap s e) e.time := by
  have hv := hinv.monoT ht
  cases e with
  | produce t =>
    have hr : GoodProduced D t (mkProduced D t) := ⟨rfl, rfl, le_refl t⟩
    simp only [step]
    refine ⟨?_, ?_, ?_, ?_, ?_, ?_⟩
    · intro q hqm
      rcases mem_pushDropOldest hqm with h | h
      · exact hv.qGood q h
      · rw [h]; exact hr
    · refine pairwise_pushDropOldest hv.qSorted ?_
      intro a ha
      exact le_trans (hv.qGood a ha).2.2 (le_refl t)
    · intro r hrr
      injection hrr with hrr
      subst hrr
      refine ⟨hr, ?_⟩
      intro q hqm
      rcases mem_pushDropOldest hqm with h | h
      · exact (hv.qGood q h).2.2
      · rw [h]
    · exact hv.sentGood
    · exact hv.sentSorted
    · rcases hv.link with hl | ⟨pre, dt, r0, h1, h2, h3, h4, h5, h6⟩
      · exact Or.inl hl
      · refine Or.inr ⟨pre, dt, r0, h1, h2, h3, ?_, ?_, h6⟩
        · intro q hqm
          rcases mem_pushDropOldest hqm with h | h
          · exact h4 q h
          · rw [h]; exact h3.2.2
        · intro lr hlr
          injection hlr with hlr
          subst hlr
          exact h3.2.2
  | clientStep t =>
    rcases hq : s.queue with _ | ⟨x, rest⟩
    · rcases hl : s.latest with _ | c
      · simp only [step, hq, hl]
        exact hv
      · have hcGood : GoodProduced D t c ∧ ∀ q ∈ s.queue, q.prodTime ≤ c.prodTime :=
          hv.latestGood c hl
        by_cases hid : s.lastSentId = some c.analysisId
        · simp only [step, hq, hl, if_pos hid]
          exact hv
        · simp only [step, hq, hl, if_neg hid]
          refine ⟨?_, ?_, ?_, ?_, ?_, ?_⟩
          · intro r hr
            exact absurd hr (by simp)
          · simp
          · intro r hrr
            simp only [Option.some.injEq] at hrr
            subst hrr
            refine ⟨hcGood.1, ?_⟩
            intro q hqm
            exact absurd hqm (by simp)
          · intro p hp
            rcases List.mem_append.mp hp with hp | hp
            · exact hv.sentGood p hp
            · rw [List.mem_singleton.mp hp]
              exact ⟨hcGood.1, hcGood.1.2.2⟩
          · rw [List.pairwise_append]
            refine ⟨hv.sentSorted, List.pairwise_singleton _ _, ?_⟩
            intro p hp b hb
            rw [List.mem_singleton.mp hb]
            rcases hv.link with ⟨_, hsent⟩ | ⟨pre, dt, r0, h1, h2, h3, h4, h5, h6⟩
            · rw [hsent] at hp; exact absurd hp (by simp)
            · have hr0c : r0.prodTime ≤ c.prodTime := h5 c hl
              have hidlt : r0.analysisId < c.analysisId := by
                rcases lt_or_eq_of_le (goodId_le h3 hcGood.1 hr0c) with h | h
                · exact h
                · exact absurd (h2.trans (by rw [h])) hid
              exact ⟨le_trans (h6 p hp).1 hr0c, lt_of_le_of_lt (h6 p hp).2 hidlt⟩
          · refine Or.inr ⟨s.sent, t, c, rfl, rfl, hcGood.1, ?_, ?_, ?_⟩
            · intro q hqm
              exact absurd hqm (by simp)
            · intro lr hlr
              simp only [Option.some.injEq] at hlr
              rw [← hlr]
            · intro p hp
              rcases List.mem_append.mp hp with hp | hp
              · rcases hv.link with ⟨_, hsent⟩ | ⟨pre, dt, r0, h1, h2, h3, h4, h5, h6⟩
                · rw [hsent] at hp; exact absurd hp (by simp)
                · have hr0c : r0.prodTime ≤ c.prodTime := h5 c hl
                  exact ⟨le_trans (h6 p hp).1 hr0c,
                    le_trans (h6 p hp).2 (goodId_le h3 hcGood.1 hr0c)⟩
              · rw [List.mem_singleton.mp hp]
                exact ⟨le_refl _, le_refl _⟩
    · have hxq : x ∈ s.queue := by rw [hq]; exact List.mem_cons_self x rest
      have hxGood : GoodProduced D t x := hv.qGood x hxq
      have hx_le_rest : ∀ q ∈ rest, x.prodTime ≤ q.prodTime := by
        have hs := hv.qSorted
        rw [hq] at hs
        exact (List.pairwise_cons.mp hs).1
      have hrestSorted : rest.Pairwise (fun a b => a.prodTime ≤ b.prodTime) := by
        have hs := hv.qSorted
        rw [hq] at hs
        exact (List.pairwise_cons.mp hs).2
      have hrest_mem : ∀ q ∈ rest, q ∈ s.queue := by
        intro q hqm
        rw [hq]
        exact List.mem_cons_of_mem x hqm
      by_cases hid : s.lastSentId = some x.analysisId
      · simp only [step, hq, if_pos hid]
        refine ⟨?_, hrestSorted, ?_, hv.sentGood, hv.sentSorted, ?_⟩
        · intro q hqm
          exact hv.qGood q (hrest_mem q hqm)
        · intro r hrr
          refine ⟨(hv.latestGood r hrr).1, ?_⟩
          intro q hqm
          exact (hv.latestGood r hrr).2 q (hrest_mem q hqm)
        · rcases hv.link with hl | ⟨pre, dt, r0, h1, h2, h3, h4, h5, h6⟩
          · exact Or.inl hl
          · exact Or.inr ⟨pre, dt, r0, h1, h2, h3,
              fun q hqm => h4 q (hrest_mem q hqm), h5, h6⟩
      · simp only [step, hq, if_neg hid]
        refine ⟨?_, hrestSorted, ?_, ?_, ?_, ?_⟩
        · intro q hqm
          exact hv.qGood q (hrest_mem q hqm)
        · intro r hrr
          refine ⟨(hv.latestGood r hrr).1, ?_⟩
          intro q hqm
          exact (hv.latestGood r hrr).2 q (hrest_mem q hqm)
        · intro p hp
          rcases List.mem_append.mp hp with hp | hp
          · exact hv.sentGood p hp
          · rw [List.mem_singleton.mp hp]
            exact ⟨hxGood, hxGood.2.2⟩
        · rw [List.pairwise_append]
          refine ⟨hv.sentSorted, List.pairwise_singleton _ _, ?_⟩
          intro p hp b hb
          rw [List.mem_singleton.mp hb]
          rcases hv.link with ⟨_, hsent⟩ | ⟨pre, dt, r0, h1, h2, h3, h4, h5, h6⟩
          · rw [hsent] at hp; exact absurd hp (by simp)
          · have hr0x : r0.prodTime ≤ x.prodTime := h4 x hxq
            have hidlt : r0.analysisId < x.analysisId := by
              rcases lt_or_eq_of_le (goodId_le h3 hxGood hr0x) with h | h
              · exact h
              · exact absurd (h2.trans (by rw [h])) hid
            exact ⟨le_trans (h6 p hp).1 hr0x, lt_of_le_of_lt (h6 p hp).2 hidlt⟩
        · refine Or.inr ⟨s.sent, t, x, rfl, rfl, hxGood, hx_le_rest, ?_, ?_⟩
          · intro lr hlr
            exact (hv.latestGood lr hlr).2 x hxq
          · intro p hp
            rcases List.mem_append.mp hp with hp | hp
            · rcases hv.link with ⟨_, hsent⟩ | ⟨pre, dt, r0, h1, h2, h3, h4, h5, h6⟩
              · rw [hsent] at hp; exact absurd hp (by simp)
              · have hr0x : r0.prodTime ≤ x.prodTime := h4 x hxq
                exact ⟨le_trans (h6 p hp).1 hr0x,
                  le_trans (h6 p hp).2 (goodId_le h3 hxGood hr0x)⟩
            · rw [List.mem_singleton.mp hp]
              exact ⟨le_refl _, le_refl _⟩
  | otherPop t =>
    simp only [step]
    refine ⟨?_, hv.qSorted.sublist (List.tail_sublist _), ?_, hv.sentGood,
      hv.sentSorted, ?_⟩
    · intro q hqm
      exact hv.qGood q (List.mem_of_mem_tail hqm)
    · intro r hrr
      refine ⟨(hv.latestGood r hrr).1, ?_⟩
      intro q hqm
      exact (hv.latestGood r hrr).2 q (List.mem_of_mem_tail hqm)
    · rcases hv.link with hl | ⟨pre, dt, r0, h1, h2, h3, h4, h5, h6⟩
      · exact Or.inl hl
      · exact Or.inr ⟨pre, dt, r0, h1, h2, h3,
          fun q hqm => h4 q (List.mem_of_mem_tail hqm), h5, h6⟩

theorem inv_runAux (D : ℚ) (cap : ℕ) :
    ∀ (evs : List Ev) (s : SysState) (tmax : ℚ), Inv D s tmax →
      List.Pairwise (· ≤ ·) (tmax :: evs.map Ev.time) →
      ∃ tf, Inv D (evs.foldl (step D cap) s) tf
  | [], s, t, hinv, _ => ⟨t, hinv⟩
  | e :: evs, s, t, hinv, hp => by
    rw [List.foldl_cons]
    simp only [List.map_cons] at hp
    have hpc := List.pairwise_cons.mp hp
    have ht : t ≤ e.time := hpc.1 e.time (by simp)
    exact inv_runAux D cap evs (step D cap s e) e.time
      (inv_step cap hinv e ht) hpc.2

theorem inv_run (D : ℚ) (cap : ℕ) (evs : List Ev)
    (hmono : (evs.map Ev.time).Pairwise (· ≤ ·)) :
    ∃ tf, Inv D (runTrace D cap evs) tf := by
  cases evs with
  | nil => exact ⟨0, inv_init D 0⟩
  | cons e evs =>
    apply inv_runAux D cap (e :: evs) initSys e.time (inv_init D e.time)
    simp only [List.map_cons] at hmono ⊢
    refine List.pairwise_cons.mpr ⟨?_, hmono⟩
    intro y hy
    rcases List.mem_cons.mp hy with rfl | hy
    · exact le_refl _
    · exact (List.pairwise_cons.mp hmono).1 y hy

/-! ## Claim theorems: C4 and C1 -/

/-- C4: along any trace whose wall-clock times are non-decreasing, the
analyses an SSE client emits are in non-decreasing timestamp order, and
the client never emits the same `analysisId` twice. -/
theorem C4_sse_order_dedup (D : ℚ) (cap : ℕ) (evs : List Ev)
    (hmono : (evs.map Ev.time).Pairwise (· ≤ ·)) :
    List.Sorted (· ≤ ·)
      ((runTrace D cap evs).sent.map (fun p => p.2.timestamp)) ∧
    ((runTrace D cap evs).sent.map (fun p => p.2.analysisId)).Nodup := by
  obtain ⟨tf, hinv⟩ := inv_run D cap evs hmono
  constructor
  · show List.Pairwise _ _
    rw [List.pairwise_map]
    refine List.Pairwise.imp_of_mem ?_ hinv.sentSorted
    intro a b ha hb hab
    have hA := (hinv.sentGood a ha).1.1
    have hB := (hinv.sentGood b hb).1.1
    rw [hA, hB]
    have hab1 := hab.1
    linarith
  · show List.Pairwise _ _
    rw [List.pairwise_map]
    refine List.Pairwise.imp ?_ hinv.sentSorted
    intro a b hab
    exact Int.ne_of_lt hab.2

/-- C4 witness: two productions and two client iterations at increasing
times. -/
theorem C4_sse_order_dedup_witness :
    (([Ev.produce 0, Ev.clientStep 1, Ev.produce 2,
        Ev.clientStep 3].map Ev.time).Pairwise (· ≤ ·)) ∧
    (List.Sorted (· ≤ ·)
      ((runTrace 2 50 [Ev.produce 0, Ev.clientStep 1, Ev.produce 2,
          Ev.clientStep 3]).sent.map (fun p => p.2.timestamp)) ∧
    ((runTrace 2 50 [Ev.produce 0, Ev.clientStep 1, Ev.produce 2,
        Ev.clientStep 3]).sent.map (fun p => p.2.analysisId)).Nodup) :=
  have hm : (([Ev.produce 0, Ev.clientStep 1, Ev.produce 2,
      Ev.clientStep 3].map Ev.time).Pairwise (· ≤ ·)) := by
    norm_num [Ev.time, List.pairwise_cons]
  ⟨hm, C4_sse_order_dedup 2 50 _ hm⟩

/-- C1 counterexample: with the deployed delay `D = 10.5` s, a result
produced at time `T = 0` is delivered to an SSE client at time `0`,
strictly before `T + D` — the delay gate of the claim does not exist in
the code. -/
theorem C1_counterexample :
    (runTrace (21/2) 50 [Ev.produce 0, Ev.clientStep 0]).sent
      = [(0, mkProduced (21/2) 0)] ∧
    (mkProduced (21/2) 0).prodTime = 0 ∧
    (0 : ℚ) < (mkProduced (21/2) 0).prodTime + 21/2 := by
  refine ⟨?_, rfl, by norm_num [mkProduced]⟩
  show (step (21/2) 50 (step (21/2) 50 initSys (Ev.produce 0)) (Ev.clientStep 0)).sent
    = [(0, mkProduced (21/2) 0)]
  norm_num [initSys, step, pushDropOldest]
  rw [if_neg (fun hc => Option.noConfusion hc)]

/-- C1 amended: the configured delay is applied by sleeping once after
connect (the read loop starts no earlier than `t + D`) and by rewriting
each result's timestamp to production time − `D`; a result may be released
to a client at any time at or after its production (it is not gated to
`T + D`), and releases reach each client in production order. -/
theorem C1_delay_semantics (D : ℚ) (cap : ℕ) (evs : List Ev) (t : ℚ)
    (hD : 0 ≤ D) (hmono : (evs.map Ev.time).Pairwise (· ≤ ·)) :
    (t + D ≤ applyStreamDelay D t) ∧
    (∀ p ∈ (runTrace D cap evs).sent,
      p.2.timestamp = p.2.prodTime - D ∧ p.2.prodTime ≤ p.1) ∧
    List.Sorted (· ≤ ·)
      ((runTrace D cap evs).sent.map (fun p => p.2.prodTime)) := by
  obtain ⟨tf, hinv⟩ := inv_run D cap evs hmono
  refine ⟨?_, ?_, ?_⟩
  · unfold applyStreamDelay
    split
    · have hD0 : D = 0 := le_antisymm (by assumption) hD
      rw [hD0]
      simp
    · exact le_refl _
  · intro p hp
    exact ⟨(hinv.sentGood p hp).1.1, (hinv.sentGood p hp).2⟩
  · show List.Pairwise _ _
    rw [List.pairwise_map]
    refine List.Pairwise.imp ?_ hinv.sentSorted
    intro a b hab
    exact hab.1

/-- C1 amended witness. -/
theorem C1_delay_semantics_witness :
    ((0 : ℚ) ≤ 21/2 ∧
      (([Ev.produce 0, Ev.clientStep 1].map Ev.time).Pairwise (· ≤ ·))) ∧
    (((5 : ℚ) + 21/2 ≤ applyStreamDelay (21/2) 5) ∧
      (∀ p ∈ (runTrace (21/2) 50 [Ev.produce 0, Ev.clientStep 1]).sent,
        p.2.timestamp = p.2.prodTime - 21/2 ∧ p.2.prodTime ≤ p.1) ∧
      List.Sorted (· ≤ ·)
        ((runTrace (21/2) 50 [Ev.produce 0, Ev.clientStep 1]).sent.map
          (fun p => p.2.prodTime))) :=
  have hD : (0 : ℚ) ≤ 21/2 := by norm_num
  have hm : (([Ev.produce 0, Ev.clientStep 1].map Ev.time).Pairwise (· ≤ ·)) := by
    norm_num [Ev.time, List.pairwise_cons]
  ⟨⟨hD, hm⟩, C1_delay_semantics (21/2) 50 [Ev.produce 0, Ev.clientStep 1] 5 hD hm⟩

end Yamnet
